import Mathlib

/-!
Verification of the influxdb-migrator core (src/migrator.py) against its
natural-language specification.  The Python code is shallowly embedded:
pure functions become Lean functions over `String`, `List` and `Int`; the
streaming copy loop and the windowing while-loop become structural
recursions (the latter with a fuel argument proven sufficient).  Python's
`re` module is external to the repository; it is modelled by the
`CompiledPattern` structure (a pattern source string together with its
match and substitution semantics), and `modelCompile` gives the concrete
semantics on the exact fragment of patterns the program compiles
(anchored escaped-literal-stem wildcard patterns, and the one regex used
by the specification's examples).  All values are assumed newline-free,
which is the regime in which this model of `re` is exact.
-/

/-! ## Model of the Python string primitives used by migrator.py -/

/-- Characters escaped by Python's `re.escape` (CPython `_special_chars_map`). -/
def pySpecialChars : List Char :=
  ['(', ')', '[', ']', Char.ofNat 123, Char.ofNat 125, '?', '*', '+', '-', '|',
   '^', '$', '\\', '.', '&', '~', '#', ' ', '\t', '\n', '\r',
   Char.ofNat 11, Char.ofNat 12]

/-- Model of Python `re.escape`: prepend a backslash to every special character. -/
def pyReEscape (s : String) : String :=
  String.mk (s.toList.foldr (fun c acc => if c ∈ pySpecialChars then '\\' :: c :: acc else c :: acc) [])

/-- Model of Python `str.replace("\\*", ".*")`: left-to-right, non-overlapping. -/
def replaceStarSeq : List Char → List Char
  | [] => []
  | [c] => [c]
  | c1 :: c2 :: rest =>
    if c1 = '\\' ∧ c2 = '*' then '.' :: '*' :: replaceStarSeq rest
    else c1 :: replaceStarSeq (c2 :: rest)

/-- String wrapper for `replaceStarSeq`. -/
def replaceStar (s : String) : String := String.mk (replaceStarSeq s.toList)

/-- Drop leading characters belonging to `set` (Python `str.lstrip(chars)`). -/
def dropWhileMem (set : List Char) : List Char → List Char
  | [] => []
  | c :: cs => if c ∈ set then dropWhileMem set cs else c :: cs

/-- Structural prefix test on character lists (the basis of the model's
`str.startswith`). -/
def charsPre : List Char → List Char → Bool
  | [], _ => true
  | _ :: _, [] => false
  | c :: cs, d :: ds => c = d && charsPre cs ds

/-- Model of Python `s.startswith(pre)` (kernel-reducible). -/
def strStarts (s pre : String) : Bool := charsPre pre.toList s.toList

/-- Model of Python `s.endswith(suf)` (kernel-reducible). -/
def strEnds (s suf : String) : Bool := charsPre suf.toList.reverse s.toList.reverse

/-- Model of Python slicing `s[n:]` (code points). -/
def strDrop (s : String) (n : Nat) : String := String.mk (s.toList.drop n)

/-- Model of Python slicing `s[:-n]` (code points). -/
def strDropRight (s : String) (n : Nat) : String :=
  String.mk (s.toList.take (s.toList.length - n))

/-- The whitespace characters stripped by Python `str.strip()`. -/
def pyWhitespace : List Char := [' ', '\t', '\n', '\r', Char.ofNat 11, Char.ofNat 12]

/-- Model of Python `str.lstrip(chars)`. -/
def lstripSet (s : String) (set : List Char) : String := String.mk (dropWhileMem set s.toList)

/-- Model of Python `str.rstrip(chars)`. -/
def rstripSet (s : String) (set : List Char) : String :=
  String.mk (dropWhileMem set s.toList.reverse).reverse

/-- Model of Python `str.strip()` (no argument: strip whitespace both ends). -/
def pyStrip (s : String) : String :=
  String.mk (dropWhileMem pyWhitespace (dropWhileMem pyWhitespace s.toList).reverse).reverse

/-- Model of Python `str.replace("\\", "")`: delete every backslash. -/
def removeBackslashes (s : String) : String :=
  String.mk (s.toList.filter (fun c => ¬ c = '\\'))

/-- Remove one level of backslash escaping from an escaped literal
(regex source like `prod\-` denotes the literal `prod-`). -/
def unescapeLit : List Char → List Char
  | [] => []
  | [c] => [c]
  | c1 :: c2 :: rest => if c1 = '\\' then c2 :: unescapeLit rest else c1 :: unescapeLit (c2 :: rest)

/-- Model of Python `re` template expansion for `re.sub` replacement strings:
a backslash followed by a digit is a group back-reference, any other
character (including `$`) stands for itself. -/
def pyExpandAux (groups : List String) : List Char → List Char
  | [] => []
  | ['\\'] => ['\\']
  | '\\' :: c :: rest =>
    if c.isDigit then (groups.getD (c.toNat - 49) "").toList ++ pyExpandAux groups rest
    else c :: pyExpandAux groups rest
  | c :: rest => c :: pyExpandAux groups rest

/-- String wrapper for `pyExpandAux`. -/
def pyExpand (template : String) (groups : List String) : String :=
  String.mk (pyExpandAux groups template.toList)

/-! ## Model of Python compiled regular expressions -/

/-- Model of a compiled Python pattern: its source string (the `.pattern`
attribute read back by the wildcard stem recovery), its `re.match`
semantics (anchored at the start) and its `re.sub` semantics. -/
structure CompiledPattern where
  pattern : String
  pmatch : String → Bool
  psub : String → String → String

/-- Match for the regex `^prod-(\d+)$`: the whole value must be `prod-`
followed by one or more digits; returns the captured digit group. -/
def prodMatch (v : String) : Option String :=
  if strStarts v "prod-" then
    let rest := strDrop v 5
    if rest.length > 0 ∧ rest.toList.all Char.isDigit then some rest else none
  else none

/-- A pattern past the modelled fragment: never matches, substitution is
the identity.  No theorem in this file evaluates such a pattern. -/
def unmodeledPattern (src : String) : CompiledPattern :=
  { pattern := src, pmatch := fun _ => false, psub := fun _ v => v }

/-- Model of `re.compile` on the fragment of patterns the program builds:
the anchored prefix patterns `^<escaped stem>.*$` produced for wildcard
rules, and the regex `^prod-(\d+)$` from the specification's examples
(for newline-free subject strings these semantics are exact). -/
def modelCompile (src : String) : CompiledPattern :=
  if src = "^prod-(\\d+)$" then
    { pattern := src,
      pmatch := fun v => (prodMatch v).isSome,
      psub := fun repl v =>
        match prodMatch v with
        | some g => pyExpand repl [g]
        | none => v }
  else if strStarts src "^" ∧ strEnds src ".*$" then
    let stem := String.mk (unescapeLit (strDropRight (strDrop src 1) 3).toList)
    { pattern := src,
      pmatch := fun v => strStarts v stem,
      psub := fun repl v => if strStarts v stem then pyExpand repl [] else v }
  else unmodeledPattern src

/-! ## Rule types (migrator.py MapRule / NameMapRule / InjectRule) -/

/-- `MapRule` from migrator.py: `("exact", tag, from_literal, replacement)`,
`("regex", tag, compiled, replacement)` or `("wildcard", tag, compiled, replacement)`. -/
inductive MapRule where
  | exact (key : String) (frm : String) (dst : String)
  | regex (key : String) (pat : CompiledPattern) (repl : String)
  | wildcard (key : String) (pat : CompiledPattern) (repl : String)

/-- The tag key a map rule is scoped to (component 2 of the Python tuple). -/
def MapRule.key : MapRule → String
  | .exact k _ _ => k
  | .regex k _ _ => k
  | .wildcard k _ _ => k

/-- `NameMapRule` from migrator.py: `("exact", from, to)` or `("regex", compiled, repl)`. -/
inductive NameMapRule where
  | exact (frm : String) (dst : String)
  | regex (pat : CompiledPattern) (repl : String)

/-- `InjectRule` from migrator.py: `("static", new_key, None, value, value)` or a
derived rule `(kind, new_key, source_key, matcher, replacement)`.  `source_key`
is optional in the `--tag-inject` grammar, hence `Option String`. -/
inductive InjectRule where
  | static (new_key : String) (value : String)
  | exact (new_key : String) (source_key : Option String) (frm : String) (dst : String)
  | regex (new_key : String) (source_key : Option String) (pat : CompiledPattern) (dst : String)
  | wildcard (new_key : String) (source_key : Option String) (pat : CompiledPattern) (dst : String)

/-- The key of the tag an inject rule writes. -/
def InjectRule.new_key : InjectRule → String
  | .static k _ => k
  | .exact k _ _ _ => k
  | .regex k _ _ _ => k
  | .wildcard k _ _ _ => k

/-- The source tag key a derived inject rule reads (none for static rules
and for specs written without a `source:` part). -/
def InjectRule.source_key : InjectRule → Option String
  | .static _ _ => none
  | .exact _ sk _ _ => sk
  | .regex _ sk _ _ => sk
  | .wildcard _ sk _ _ => sk

/-- True for the derived (exact/regex/wildcard) inject rules. -/
def InjectRule.isDerived : InjectRule → Bool
  | .static _ _ => false
  | _ => true

/-! ## parse_tag_maps (migrator.py lines 127-153) -/

/-- Split a character list at the first occurrence of `c`. -/
def splitFirst (c : Char) : List Char → Option (List Char × List Char)
  | [] => none
  | x :: xs =>
    if x = c then some ([], xs)
    else (splitFirst c xs).map (fun p => (x :: p.1, p.2))

/-- Model of matching `TAG_MAP_RE = ^(?P<key>[^=]+)=(?P<from>[^>]+)->(?P<to>.+)$`
against a spec string (for newline-free strings).  The key is everything
before the first `=`; the greedy `from` group extends to just before the
first `>`, which must be preceded by `-`; the remainder is `to`.  Returns
`(key, from, to)` on a match. -/
def tagMapReMatch (s : String) : Option (String × String × String) :=
  match splitFirst '=' s.toList with
  | none => none
  | some (key, r) =>
    if key = [] then none
    else
      match splitFirst '>' r with
      | none => none
      | some (fromDash, toCs) =>
        if fromDash.getLast? = some '-' ∧ 2 ≤ fromDash.length ∧ toCs ≠ [] then
          some (String.mk key, String.mk fromDash.dropLast, String.mk toCs)
        else none

/-- `parse_tag_maps` from migrator.py: each `--tag-map` spec is matched
against `TAG_MAP_RE`; `~/regex/` sources compile the inner regex, sources
containing `*` become wildcard rules over `"^" + re.escape(frm).replace("\\*", ".*") + "$"`,
anything else is an exact rule.  `re.compile` is passed in as `compile`
(instantiated with `modelCompile` in the theorems below).  Raises
`ValueError` (modelled by `Except.error`) on a spec the regex rejects. -/
def parse_tag_maps (compile : String → CompiledPattern) : List String → Except String (List MapRule)
  | [] => .ok []
  | s :: rest =>
    match tagMapReMatch s with
    | none => .error ("Invalid --tag-map spec: " ++ s)
    | some (key, frm0, dst) =>
      let tag := pyStrip key
      let frm := pyStrip frm0
      let rule :=
        if strStarts frm "~/" ∧ strEnds frm "/" then
          MapRule.regex tag (compile (strDropRight (strDrop frm 2) 1)) dst
        else if frm.toList.any (fun c => c = '*') then
          MapRule.wildcard tag (compile ("^" ++ replaceStar (pyReEscape frm) ++ "$")) dst
        else MapRule.exact tag frm dst
      (parse_tag_maps compile rest).map (fun rules => rule :: rules)

/-! ## apply_tag_maps (migrator.py lines 215-242) -/

/-- The wildcard stem recovery from migrator.py line 229:
`from_obj.pattern.lstrip("^").rstrip(".*$").replace("\\", "")`. -/
def recoverStem (pat : String) : String :=
  removeBackslashes (rstripSet (lstripSet pat ['^']) ['.', '*', '$'])

/-- `apply_tag_maps` from migrator.py: scan the rules in order, skipping
rules scoped to a different tag key.  An exact rule returns its
replacement on the first value match; a regex rule returns the
substitution result only when it differs from the input, otherwise the
scan continues; a wildcard rule whose pattern matches returns
unconditionally (the rewritten value when the recovered stem prefixes the
value, the original value otherwise).  If no rule returns, the value is
returned unmodified. -/
def apply_tag_maps (tag value : String) : List MapRule → String
  | [] => value
  | r :: rest =>
    match r with
    | .exact t frm dst =>
      if t = tag then
        (if value = frm then dst else apply_tag_maps tag value rest)
      else apply_tag_maps tag value rest
    | .regex t pat repl =>
      if t = tag then
        (if pat.pmatch value then
          (if pat.psub repl value ≠ value then pat.psub repl value
           else apply_tag_maps tag value rest)
         else apply_tag_maps tag value rest)
      else apply_tag_maps tag value rest
    | .wildcard t pat repl =>
      if t = tag then
        (if pat.pmatch value then
          (if strStarts value (recoverStem pat.pattern) then
            repl ++ strDrop value (recoverStem pat.pattern).length
           else value)
         else apply_tag_maps tag value rest)
      else apply_tag_maps tag value rest

/-- `apply_name_maps` from migrator.py lines 278-293: exact rules return
their replacement on the first name match; regex rules run the
substitution unconditionally and return only when it changed the name. -/
def apply_name_maps (value : String) : List NameMapRule → String
  | [] => value
  | .exact frm dst :: rest => if value = frm then dst else apply_name_maps value rest
  | .regex pat repl :: rest =>
    if pat.psub repl value ≠ value then pat.psub repl value else apply_name_maps value rest

/-! ## Point and record model -/

/-- Dict-style update used by `Point.tag` and `Point.field` (Python dict
assignment: replace in place if the key exists, else append). -/
def setEntry {β : Type} : List (String × β) → String → β → List (String × β)
  | [], k, v => [(k, v)]
  | (k', v') :: rest, k, v =>
    if k' = k then (k, v) :: rest else (k', v') :: setEntry rest k v

/-- Model of `influxdb_client.Point`: a measurement name, tag dict, field
dict and timestamp.  Field values are carried as their (optional) string
representation; the claims never inspect them. -/
structure Point where
  name : String
  tags : List (String × String)
  fields : List (String × Option String)
  time : Option Int

/-- `Point.tag` from the client library: `self._tags[key] = value`. -/
def Point.tag (p : Point) (k v : String) : Point :=
  { p with tags := setEntry p.tags k v }

/-- `Point.field` from the client library: `self._fields[key] = value`. -/
def Point.field (p : Point) (k : String) (v : Option String) : Point :=
  { p with fields := setEntry p.fields k v }

/-- A record from the source query stream (FluxRecord): the reserved
markers are surfaced by `get_measurement` / `get_field` / `get_time`
(each may be null), and `values` is the raw key-value mapping of the row
(it also holds reserved keys such as `table` or `_measurement`).  Values
are carried as their Python `str(...)` representation, `none` standing
for Python `None`. -/
structure FluxRecord where
  measurement : Option String
  field : Option String
  time : Option Int
  value : Option String
  values : List (String × Option String)

/-- The malformed-record guard of `copy_window` (migrator.py lines
340-344): a record is processed only when its measurement, field and time
are all present (a falsy or attribute-less stream element behaves the
same as a missing marker and is skipped too). -/
def isValidRecord (r : FluxRecord) : Bool :=
  r.measurement.isSome && r.field.isSome && r.time.isSome

/-- Lookup of `source_key in rec_values` followed by `rec_values[source_key]`:
`none` means the key is absent (a `None` source key is never a dict key),
`some none` means present with a null value. -/
def lookupVal (vals : List (String × Option String)) : Option String → Option (Option String)
  | none => none
  | some k => List.lookup k vals

/-! ## apply_tag_injects (migrator.py lines 245-275) -/

/-- One iteration of the `apply_tag_injects` loop for a single rule:
static rules always set their tag; derived rules look `source_key` up in
the record's raw `values` mapping, skip silently when it is absent or
null, and otherwise apply the exact/regex/wildcard matcher semantics
(regex only sets the tag when substitution changed the value; wildcard
re-checks the recovered stem). -/
def injectStep (vals : List (String × Option String)) (p : Point) : InjectRule → Point
  | .static k v => p.tag k v
  | .exact k sk frm dst =>
    match lookupVal vals sk with
    | some (some s) => if s = frm then p.tag k dst else p
    | _ => p
  | .regex k sk pat dst =>
    match lookupVal vals sk with
    | some (some s) =>
      if pat.pmatch s then
        (if pat.psub dst s ≠ s then p.tag k (pat.psub dst s) else p)
      else p
    | _ => p
  | .wildcard k sk pat dst =>
    match lookupVal vals sk with
    | some (some s) =>
      if pat.pmatch s then
        (if strStarts s (recoverStem pat.pattern) then
          p.tag k (dst ++ strDrop s (recoverStem pat.pattern).length)
         else p)
      else p
    | _ => p

/-- `apply_tag_injects` from migrator.py: run every rule in order against
the point (no early return; every rule acts independently). -/
def apply_tag_injects (p : Point) (vals : List (String × Option String))
    (rules : List InjectRule) : Point :=
  rules.foldl (injectStep vals) p

/-! ## record_to_point (migrator.py lines 296-311) -/

/-- The reserved keys skipped when building the output tag set
(migrator.py line 297). -/
def skipKeys : List String :=
  ["result", "table", "_start", "_stop", "_time", "_measurement", "_field", "_value"]

/-- The body of the tag-copying loop of `record_to_point`: skip reserved
keys, keys starting with an underscore and null values; otherwise set the
tag with its value remapped through `apply_tag_maps`. -/
def recordTagsStep (tag_rules : List MapRule) (p : Point) (kv : String × Option String) :
    Point :=
  if kv.1 ∈ skipKeys ∨ strStarts kv.1 "_" then p
  else
    match kv.2 with
    | none => p
    | some v => p.tag kv.1 (apply_tag_maps kv.1 v tag_rules)

/-- `record_to_point` from migrator.py: rename the measurement, copy every
non-reserved, non-underscore, non-null entry of `rec.values` as a tag with
its value remapped through `apply_tag_maps`, run the injections against
the raw `rec.values`, rename the field and carry value and time through.
The caller only invokes it on records that pass `isValidRecord`, so the
null measurement/field cases (which would crash in Python) are defaulted
to the empty string. -/
def record_to_point (rec : FluxRecord) (tag_rules : List MapRule)
    (measurement_rules field_rules : List NameMapRule)
    (inject_rules : List InjectRule) : Point :=
  let p : Point := ⟨apply_name_maps (rec.measurement.getD "") measurement_rules, [], [], none⟩
  let p := rec.values.foldl (recordTagsStep tag_rules) p
  let p := apply_tag_injects p rec.values inject_rules
  let p := p.field (apply_name_maps (rec.field.getD "") field_rules) rec.value
  { p with time := rec.time }

/-! ## copy_window (migrator.py lines 334-358) -/

/-- The record loop of `copy_window`, carrying the current batch and
count.  Malformed records are skipped; valid records are transformed; in
dry-run mode the point is only logged (never batched); otherwise it is
appended to the batch, which is flushed to the destination as soon as its
size reaches `batchSize`; a non-empty remainder is flushed after the
stream ends.  Returns the final count and the list of flushed batches in
flush order. -/
def copyLoop (batchSize : Nat) (tr : List MapRule) (mr fr : List NameMapRule)
    (ir : List InjectRule) (dryRun : Bool) :
    List FluxRecord → List Point → Nat → Nat × List (List Point)
  | [], batch, count =>
    (count, if dryRun = false ∧ batch.isEmpty = false then [batch] else [])
  | r :: rs, batch, count =>
    if isValidRecord r = false then copyLoop batchSize tr mr fr ir dryRun rs batch count
    else
      let point := record_to_point r tr mr fr ir
      if dryRun then copyLoop batchSize tr mr fr ir dryRun rs batch (count + 1)
      else
        let batch' := batch ++ [point]
        if batchSize ≤ batch'.length then
          let res := copyLoop batchSize tr mr fr ir dryRun rs [] (count + 1)
          (res.1, batch' :: res.2)
        else copyLoop batchSize tr mr fr ir dryRun rs batch' (count + 1)

/-- `copy_window` from migrator.py, over a materialised record stream:
returns the count of copied records and the flushed batches. -/
def copy_window (batchSize : Nat) (tr : List MapRule) (mr fr : List NameMapRule)
    (ir : List InjectRule) (dryRun : Bool) (recs : List FluxRecord) :
    Nat × List (List Point) :=
  copyLoop batchSize tr mr fr ir dryRun recs [] 0

/-! ## The window loop and run (migrator.py lines 387-498) -/

/-- The window-planning portion of the `while cur < abs_stop` loop in
`run`: emit `(cur, min (cur + window) stop)` and continue from the window
end.  The Python loop has no fuel; it terminates exactly when the window
duration is positive, and the fuel `(stop - cur).toNat` is proven
sufficient for that case (`planLoop_fuel_irrelevant` below would hold for
any larger fuel as well). -/
def planLoop (stop d : Int) : Nat → Int → List (Int × Int)
  | 0, _ => []
  | fuel + 1, cur =>
    if cur < stop then
      (cur, min (cur + d) stop) :: planLoop stop d fuel (min (cur + d) stop)
    else []

/-- The sequence of half-open windows the `run` loop iterates over for an
absolute range and a positive window duration. -/
def planWindows (start stop d : Int) : List (Int × Int) :=
  planLoop stop d (stop - start).toNat start

/-- The configuration of `run` after argument parsing: the parsed flags,
time range, window duration and rule lists. -/
structure RunArgs where
  verify : Bool
  dry_run : Bool
  measurements : Option (List String)
  measurement_regex : Option String
  start : Int
  stop : Int
  window : Int
  batch_size : Nat
  tag_rules : List MapRule
  measurement_rules : List NameMapRule
  field_rules : List NameMapRule
  inject_rules : List InjectRule

/-- Python truthiness of the `args.measurements` list (None or empty is falsy). -/
def measurementsTruthy : Option (List String) → Bool
  | none => false
  | some l => !l.isEmpty

/-- Python truthiness of the `args.measurement_regex` string. -/
def regexTruthy : Option String → Bool
  | none => false
  | some s => !s.toList.isEmpty

/-- Outcome of a run: an early `sys.exit` with its code and stderr
message, or completion with the accumulated total and the per-window
counts that are logged (the raw record count in verify mode, the
copied-record count otherwise). -/
inductive RunOutcome where
  | exited (code : Nat) (msg : String)
  | completed (total : Nat) (perWindow : List Nat)
deriving DecidableEq

/-- The stderr message of migrator.py line 411. -/
def modeConflictMsg : String := "Error: --verify and --dry-run cannot be used together."

/-- The stderr message of migrator.py line 414. -/
def measConflictMsg : String := "Error: --measurement and --measurement-regex cannot be used together."

/-- The core of `run` from migrator.py after argument parsing: the two
flag validations (each a `sys.exit(1)` with a stderr message), then the
window loop.  `stream` abstracts the source `query_stream` per window;
in verify mode the window count is the raw length of the stream and
nothing is moved (`moved = 0`), otherwise `copy_window` is called.
Configuration loading, client construction and logging are external
collaborators and are not modelled. -/
def run (args : RunArgs) (stream : Int × Int → List FluxRecord) : RunOutcome :=
  if args.verify && args.dry_run then .exited 1 modeConflictMsg
  else if measurementsTruthy args.measurements && regexTruthy args.measurement_regex then
    .exited 1 measConflictMsg
  else
    let ws := planWindows args.start args.stop args.window
    let results := ws.map (fun w =>
      if args.verify then ((stream w).length, 0)
      else
        let moved := (copy_window args.batch_size args.tag_rules args.measurement_rules
          args.field_rules args.inject_rules args.dry_run (stream w)).1
        (moved, moved))
    .completed (results.map Prod.snd).sum (results.map Prod.fst)

/-! ## Window planning properties (claim C3) -/

/-- `windowsCover s e ws`: the windows of `ws` are consecutive non-empty
half-open intervals, the first starting at `s`, each later one starting
where its predecessor ended, the last ending exactly at `e` (with `s = e`
when there are none): they tile `[s, e)` exactly. -/
def windowsCover (s e : Int) : List (Int × Int) → Prop
  | [] => s = e
  | w :: ws => w.1 = s ∧ s < w.2 ∧ windowsCover w.2 e ws

lemma planLoop_stopped (stop d : Int) (fuel : Nat) (cur : Int) (h : ¬ cur < stop) :
    planLoop stop d fuel cur = [] := by
  cases fuel <;> simp [planLoop, h]

lemma planLoop_cover (stop d : Int) (hd : 0 < d) :
    ∀ (fuel : Nat) (cur : Int), (stop - cur).toNat ≤ fuel → cur ≤ stop →
      windowsCover cur stop (planLoop stop d fuel cur) := by
  intro fuel
  induction fuel with
  | zero =>
    intro cur hf hc
    have hce : cur = stop := by omega
    simp [planLoop, windowsCover, hce]
  | succ n ih =>
    intro cur hf hc
    by_cases h : cur < stop
    · have hmin1 : cur + 1 ≤ min (cur + d) stop := le_min (by omega) (by omega)
      have hmin2 : min (cur + d) stop ≤ stop := min_le_right _ _
      simp only [planLoop, if_pos h]
      exact ⟨rfl, by omega, ih (min (cur + d) stop) (by omega) (by omega)⟩
    · rw [planLoop_stopped stop d _ cur h]
      have hce : cur = stop := by omega
      simpa [windowsCover] using hce

lemma planLoop_clamp (stop d : Int) :
    ∀ (fuel : Nat) (cur : Int) (w : Int × Int), w ∈ planLoop stop d fuel cur →
      w.2 = min (w.1 + d) stop := by
  intro fuel
  induction fuel with
  | zero => intro cur w hw; simp [planLoop] at hw
  | succ n ih =>
    intro cur w hw
    by_cases h : cur < stop
    · simp only [planLoop, if_pos h, List.mem_cons] at hw
      rcases hw with rfl | hw
      · rfl
      · exact ih _ _ hw
    · rw [planLoop_stopped stop d _ cur h] at hw
      simp at hw

lemma planLoop_length (stop d : Int) (hd : 0 < d) :
    ∀ (fuel : Nat) (cur : Int), (stop - cur).toNat ≤ fuel →
      (planLoop stop d fuel cur).length =
        ((stop - cur).toNat + d.toNat - 1) / d.toNat := by
  intro fuel
  induction fuel with
  | zero =>
    intro cur hf
    have h0 : (stop - cur).toNat = 0 := by omega
    rw [h0]
    simp only [planLoop, List.length_nil]
    exact (Nat.div_eq_of_lt (by omega)).symm
  | succ n ih =>
    intro cur hf
    by_cases h : cur < stop
    · have hd' : 0 < d.toNat := by omega
      simp only [planLoop, if_pos h, List.length_cons]
      by_cases h2 : cur + d < stop
      · have hmin : min (cur + d) stop = cur + d := min_eq_left (by omega)
        rw [hmin, ih (cur + d) (by omega)]
        have e1 : (stop - (cur + d)).toNat = (stop - cur).toNat - d.toNat := by omega
        rw [e1]
        have e2 : (stop - cur).toNat - d.toNat + d.toNat - 1 = (stop - cur).toNat - 1 := by
          omega
        rw [e2]
        have e3 : (stop - cur).toNat + d.toNat - 1 = ((stop - cur).toNat - 1) + d.toNat := by
          omega
        rw [e3, Nat.add_div_right _ hd']
      · have hmin : min (cur + d) stop = stop := min_eq_right (by omega)
        rw [hmin, planLoop_stopped stop d n stop (by omega)]
        have e3 : (stop - cur).toNat + d.toNat - 1 = ((stop - cur).toNat - 1) + d.toNat := by
          omega
        rw [e3, Nat.add_div_right _ hd']
        rw [Nat.div_eq_of_lt (show (stop - cur).toNat - 1 < d.toNat by omega)]
        rfl
    · rw [planLoop_stopped stop d _ cur h]
      have h0 : (stop - cur).toNat = 0 := by omega
      rw [h0]
      simp only [List.length_nil]
      exact (Nat.div_eq_of_lt (by omega)).symm

lemma windowsCover_ge (e : Int) :
    ∀ (ws : List (Int × Int)) (s : Int), windowsCover s e ws → ∀ w ∈ ws, s ≤ w.1 := by
  intro ws
  induction ws with
  | nil => intro s _ w hw; simp at hw
  | cons a l ih =>
    intro s hc w hw
    rcases hc with ⟨ha, hlt, hrest⟩
    rcases List.mem_cons.mp hw with rfl | hw
    · omega
    · have := ih a.2 hrest w hw
      omega

lemma windowsCover_pairwise (e : Int) :
    ∀ (ws : List (Int × Int)) (s : Int), windowsCover s e ws →
      List.Pairwise (fun a b => a.2 ≤ b.1) ws := by
  intro ws
  induction ws with
  | nil => intro s _; exact List.Pairwise.nil
  | cons a l ih =>
    intro s hc
    rcases hc with ⟨ha, hlt, hrest⟩
    exact List.Pairwise.cons (fun b hb => windowsCover_ge e l a.2 hrest b hb) (ih a.2 hrest)

lemma windowsCover_le (e : Int) :
    ∀ (ws : List (Int × Int)) (s : Int), windowsCover s e ws → s ≤ e := by
  intro ws
  induction ws with
  | nil =>
    intro s h
    simp only [windowsCover] at h
    omega
  | cons a l ih =>
    intro s h
    rcases h with ⟨_, hlt, hrest⟩
    have := ih a.2 hrest
    omega

lemma windowsCover_mem_iff (e : Int) :
    ∀ (ws : List (Int × Int)) (s : Int), windowsCover s e ws →
      ∀ t : Int, (s ≤ t ∧ t < e) ↔ ∃ w ∈ ws, w.1 ≤ t ∧ t < w.2 := by
  intro ws
  induction ws with
  | nil =>
    intro s h t
    simp only [windowsCover] at h
    simp only [List.mem_nil_iff, false_and, exists_false, iff_false]
    omega
  | cons a l ih =>
    intro s h t
    rcases h with ⟨ha, hlt, hrest⟩
    have hle := windowsCover_le e l a.2 hrest
    have hiff := ih a.2 hrest t
    constructor
    · rintro ⟨h1, h2⟩
      by_cases hb : t < a.2
      · exact ⟨a, List.mem_cons_self a l, by omega, hb⟩
      · rcases hiff.mp ⟨by omega, h2⟩ with ⟨w, hw, hw1, hw2⟩
        exact ⟨w, List.mem_cons_of_mem a hw, hw1, hw2⟩
    · rintro ⟨w, hw, hw1, hw2⟩
      rcases List.mem_cons.mp hw with rfl | hw
      · omega
      · have := hiff.mpr ⟨w, hw, hw1, hw2⟩
        omega

/-- C3: for every `start < stop` and window duration `d > 0`, the window
loop of `run` yields an ordered sequence of half-open windows that is
contiguous, pairwise non-overlapping and tiles exactly `[start, stop)`;
every window ends at `min (start + d) stop`, so each has length `d`
except the one ending at `stop`, which is clamped; and the number of
windows is `ceil ((stop - start) / d)`. -/
theorem run_window_plan_spec (start stop d : Int) (h1 : start < stop) (h2 : 0 < d) :
    windowsCover start stop (planWindows start stop d)
    ∧ List.Pairwise (fun a b => a.2 ≤ b.1) (planWindows start stop d)
    ∧ (∀ w ∈ planWindows start stop d, w.2 = min (w.1 + d) stop)
    ∧ (∀ w ∈ planWindows start stop d, w.2 - w.1 ≤ d ∧ (w.2 ≠ stop → w.2 - w.1 = d))
    ∧ (planWindows start stop d).length = ((stop - start).toNat + d.toNat - 1) / d.toNat
    ∧ (∀ t : Int, (start ≤ t ∧ t < stop) ↔
         ∃ w ∈ planWindows start stop d, w.1 ≤ t ∧ t < w.2) := by
  have hcover := planLoop_cover stop d h2 (stop - start).toNat start (le_refl _) (by omega)
  refine ⟨hcover, windowsCover_pairwise stop _ start hcover, ?_, ?_, ?_, ?_⟩
  · intro w hw
    exact planLoop_clamp stop d _ start w hw
  · intro w hw
    have hc := planLoop_clamp stop d _ start w hw
    rcases min_cases (w.1 + d) stop with ⟨hm, hle⟩ | ⟨hm, hle⟩
    · exact ⟨by omega, fun _ => by omega⟩
    · exact ⟨by omega, fun hne => by omega⟩
  · exact planLoop_length stop d h2 _ start (le_refl _)
  · exact windowsCover_mem_iff stop _ start hcover

/-- Witness for C3 at the spec's end-to-end example (hours from midnight,
13 hours in 6-hour windows): three windows with the final one clamped,
and the count matches the ceiling formula. -/
theorem run_window_plan_spec_witness :
    planWindows 0 13 6 = [(0, 6), (6, 12), (12, 13)]
    ∧ windowsCover 0 13 (planWindows 0 13 6)
    ∧ (planWindows 0 13 6).length = (((13 : Int) - 0).toNat + (6 : Int).toNat - 1) / (6 : Int).toNat := by
  refine ⟨by decide, (run_window_plan_spec 0 13 6 (by decide) (by decide)).1,
    (run_window_plan_spec 0 13 6 (by decide) (by decide)).2.2.2.2.1⟩

/-! ## apply_tag_maps scanning semantics (claims C1, C2, C4) -/

/-- Whether a map rule returns (and thereby stops the scan) for a given
tag and value: exact rules fire on value equality, regex rules when the
pattern matches and the substitution changes the value, wildcard rules
whenever the pattern matches — regardless of whether the rewrite changes
anything. -/
def ruleFires (tag value : String) : MapRule → Bool
  | .exact t frm _ => decide (t = tag ∧ value = frm)
  | .regex t pat repl => decide (t = tag ∧ pat.pmatch value = true ∧ pat.psub repl value ≠ value)
  | .wildcard t pat _ => decide (t = tag ∧ pat.pmatch value = true)

/-- C1 (amended): `apply_tag_maps` scans rules in declaration order,
skipping rules scoped to a different key; an exact rule returns its
replacement immediately on the first value match, even when the
replacement equals the original; a regex rule that matches but whose
substitution leaves the value unchanged does not terminate the scan, so
later rules with the same key are still tried; a wildcard rule whose
pattern matches terminates the scan unconditionally — returning the
rewritten value when the recovered stem prefixes the value (even if that
rewrite equals the input) and the original value otherwise — without
trying later rules; and when no rule fires the original value is
returned unmodified. -/
theorem apply_tag_maps_scan_spec (tag value : String) :
    (∀ (r : MapRule) (rest : List MapRule), MapRule.key r ≠ tag →
        apply_tag_maps tag value (r :: rest) = apply_tag_maps tag value rest)
    ∧ (∀ (frm dst : String) (rest : List MapRule),
        apply_tag_maps tag value (.exact tag frm dst :: rest) =
          if value = frm then dst else apply_tag_maps tag value rest)
    ∧ (∀ (pat : CompiledPattern) (repl : String) (rest : List MapRule),
        apply_tag_maps tag value (.regex tag pat repl :: rest) =
          if pat.pmatch value = true ∧ pat.psub repl value ≠ value then pat.psub repl value
          else apply_tag_maps tag value rest)
    ∧ (∀ (pat : CompiledPattern) (repl : String) (rest : List MapRule),
        pat.pmatch value = true →
        apply_tag_maps tag value (.wildcard tag pat repl :: rest) =
          if strStarts value (recoverStem pat.pattern) then
            repl ++ strDrop value (recoverStem pat.pattern).length
          else value)
    ∧ (∀ rules : List MapRule, (∀ r ∈ rules, ruleFires tag value r = false) →
        apply_tag_maps tag value rules = value) := by
  refine ⟨?_, ?_, ?_, ?_, ?_⟩
  · intro r rest hk
    cases r with
    | exact t frm dst =>
      simp only [MapRule.key] at hk
      simp only [apply_tag_maps, if_neg hk]
    | regex t pat repl =>
      simp only [MapRule.key] at hk
      simp only [apply_tag_maps, if_neg hk]
    | wildcard t pat repl =>
      simp only [MapRule.key] at hk
      simp only [apply_tag_maps, if_neg hk]
  · intro frm dst rest
    simp [apply_tag_maps]
  · intro pat repl rest
    by_cases hm : pat.pmatch value = true
    · by_cases hs : pat.psub repl value ≠ value
      · rw [if_pos (show pat.pmatch value = true ∧ pat.psub repl value ≠ value from ⟨hm, hs⟩)]
        simp only [apply_tag_maps, if_pos rfl, if_pos hm, if_pos hs]
        exact if_pos trivial
      · rw [if_neg (show ¬ (pat.pmatch value = true ∧ pat.psub repl value ≠ value) from
          fun h => hs h.2)]
        simp only [apply_tag_maps, if_pos rfl, if_pos hm, if_neg hs]
        exact if_pos trivial
    · rw [if_neg (show ¬ (pat.pmatch value = true ∧ pat.psub repl value ≠ value) from
        fun h => hm h.1)]
      simp only [apply_tag_maps, if_pos rfl, if_neg hm]
      exact if_pos trivial
  · intro pat repl rest hm
    simp only [apply_tag_maps, if_pos rfl, if_pos hm]
    exact if_pos trivial
  · intro rules hall
    induction rules with
    | nil => rfl
    | cons r rest ih =>
      have hr := hall r (List.mem_cons_self r rest)
      have hrest : ∀ r' ∈ rest, ruleFires tag value r' = false :=
        fun r' hr' => hall r' (List.mem_cons_of_mem r hr')
      cases r with
      | exact t frm dst =>
        simp only [ruleFires, decide_eq_false_iff_not] at hr
        simp only [apply_tag_maps]
        by_cases ht : t = tag
        · rw [if_pos ht, if_neg (fun hv => hr ⟨ht, hv⟩), ih hrest]
        · rw [if_neg ht, ih hrest]
      | regex t pat repl =>
        simp only [ruleFires, decide_eq_false_iff_not] at hr
        simp only [apply_tag_maps]
        by_cases ht : t = tag
        · rw [if_pos ht]
          by_cases hm : pat.pmatch value = true
          · rw [if_pos hm, if_neg (fun hs => hr ⟨ht, hm, hs⟩), ih hrest]
          · rw [if_neg hm, ih hrest]
        · rw [if_neg ht, ih hrest]
      | wildcard t pat repl =>
        simp only [ruleFires, decide_eq_false_iff_not] at hr
        simp only [apply_tag_maps]
        by_cases ht : t = tag
        · rw [if_pos ht, if_neg (fun hm => hr ⟨ht, hm⟩), ih hrest]
        · rw [if_neg ht, ih hrest]

/-- Witness for the amended C1: an exact rule fires immediately. -/
theorem apply_tag_maps_scan_spec_witness :
    apply_tag_maps "site" "old" [MapRule.exact "site" "old" "new"] = "new" := by
  have h := (apply_tag_maps_scan_spec "site" "old").2.1 "old" "new" []
  simpa using h

/-- C1 counterexample: a wildcard rule that matches but produces a value
equal to the input does terminate the scan.  With the rules parsed from
`id=heaters*->heaters` and `id=heaters_X->changed`, the value
`heaters_X` is rewritten to itself by the first (wildcard) rule and
returned immediately, so the later exact rule — which alone yields
`changed` — is never tried, contradicting the claim that scanning
continues and that an unchanged result means the original is only
returned after all rules were tried. -/
theorem apply_tag_maps_wildcard_stops_scan :
    (parse_tag_maps modelCompile ["id=heaters*->heaters", "id=heaters_X->changed"]).map
        (fun rules => apply_tag_maps "id" "heaters_X" rules) = Except.ok "heaters_X"
    ∧ (parse_tag_maps modelCompile ["id=heaters_X->changed"]).map
        (fun rules => apply_tag_maps "id" "heaters_X" rules) = Except.ok "changed" := by
  exact ⟨rfl, rfl⟩

/-- C2, evaluated on the embedding at the claim's input: the rule parsed
from the spec string with key `host`, regex `^prod-(\d+)$` and\nreplacement `stage-$1`, applied to the tag value `prod-7`,
produces `stage-$1`, not the claimed `stage-7`: in Python `re.sub`
replacement templates a group back-reference is written `\1`, so `$1` is
literal text.  The second conjunct shows the `\1` spelling produces the
behaviour the claim (and the source's own docstring, which advertises
the `$1` spelling as "regex with backrefs") describes. -/
theorem tag_map_regex_dollar_backref_bug :
    (parse_tag_maps modelCompile ["host=~/^prod-(\\d+)$/->stage-$1"]).map
        (fun rules => apply_tag_maps "host" "prod-7" rules) = Except.ok "stage-$1"
    ∧ (parse_tag_maps modelCompile ["host=~/^prod-(\\d+)$/->stage-\\1"]).map
        (fun rules => apply_tag_maps "host" "prod-7" rules) = Except.ok "stage-7" := by
  exact ⟨rfl, rfl⟩

/-- C4: the wildcard rule parsed from `id=heaters*->control` maps every
value that starts with the literal stem `heaters` to `control` followed
by the remainder of the value (so `heaters_LHT_1` becomes
`control_LHT_1`), and leaves every other value (such as `sensors_X`)
unchanged. -/
theorem tag_map_wildcard_spec (value : String) :
    (parse_tag_maps modelCompile ["id=heaters*->control"]).map
        (fun rules => apply_tag_maps "id" value rules) =
      Except.ok (if strStarts value "heaters" then "control" ++ strDrop value 7 else value) := by
  have hp : parse_tag_maps modelCompile ["id=heaters*->control"] =
      Except.ok [MapRule.wildcard "id" (modelCompile "^heaters.*$") "control"] := rfl
  have hpm : (modelCompile "^heaters.*$").pmatch value = strStarts value "heaters" := rfl
  have hst : recoverStem (modelCompile "^heaters.*$").pattern = "heaters" := rfl
  have hlen : ("heaters" : String).length = 7 := rfl
  rw [hp]
  simp only [Except.map]
  congr 1
  by_cases h : strStarts value "heaters" = true
  · simp [apply_tag_maps, hpm, hst, hlen, h]
  · simp [apply_tag_maps, hpm, hst, hlen, h]

/-! ## copy_window batching properties (claims C5, C9) -/

/-- The flush sizes expected when `t` points are written with batch size
`b`: full batches of `b` followed by the (possibly full) remainder. -/
def expectedSizes (b t : Nat) : List Nat :=
  if t = 0 then [] else List.replicate ((t - 1) / b) b ++ [t - ((t - 1) / b) * b]

lemma expectedSizes_small (b t : Nat) (h1 : 0 < t) (h2 : t < b) :
    expectedSizes b t = [t] := by
  unfold expectedSizes
  rw [if_neg (by omega), Nat.div_eq_of_lt (by omega)]
  simp

lemma expectedSizes_cons (b n : Nat) (hb : 0 < b) :
    expectedSizes b (b + n) = b :: expectedSizes b n := by
  unfold expectedSizes
  by_cases hn : n = 0
  · subst hn
    rw [if_neg (by omega), if_pos rfl, Nat.add_zero, Nat.div_eq_of_lt (by omega)]
    simp
  · rw [if_neg (by omega), if_neg hn]
    have e1 : b + n - 1 = (n - 1) + b := by omega
    rw [e1, Nat.add_div_right _ hb, List.replicate_succ]
    have h4 : ((n - 1) / b) * b ≤ n - 1 := Nat.div_mul_le_self _ _
    have h5 : ((n - 1) / b + 1) * b = ((n - 1) / b) * b + b := by ring
    have e3 : b + n - ((n - 1) / b + 1) * b = n - ((n - 1) / b) * b := by omega
    rw [e3]
    simp

lemma expectedSizes_length (b t : Nat) (hb : 0 < b) :
    (expectedSizes b t).length = (t + b - 1) / b := by
  unfold expectedSizes
  by_cases ht : t = 0
  · subst ht
    rw [if_pos rfl]
    simp only [List.length_nil, Nat.zero_add]
    exact (Nat.div_eq_of_lt (by omega)).symm
  · rw [if_neg ht]
    simp only [List.length_append, List.length_replicate, List.length_singleton]
    have e : t + b - 1 = (t - 1) + b := by omega
    rw [e, Nat.add_div_right _ hb]

lemma flush_remainder (b t : Nat) (hb : 0 < b) (ht : 0 < t) :
    t - ((t - 1) / b) * b = if t % b = 0 then b else t % b := by
  have hdm := Nat.div_add_mod (t - 1) b
  have hmlt : (t - 1) % b < b := Nat.mod_lt _ hb
  have hmul : ((t - 1) / b) * b = b * ((t - 1) / b) := Nat.mul_comm _ _
  by_cases hr : (t - 1) % b + 1 = b
  · have e : b * ((t - 1) / b + 1) = b * ((t - 1) / b) + b := by ring
    have ht2 : t = b * ((t - 1) / b + 1) := by omega
    have hmod : t % b = 0 := by rw [ht2, Nat.mul_mod_right]
    rw [if_pos hmod]
    omega
  · have ht2 : t = ((t - 1) % b + 1) + b * ((t - 1) / b) := by omega
    have hmod : t % b = (t - 1) % b + 1 := by
      conv_lhs => rw [ht2]
      rw [Nat.add_mul_mod_self_left, Nat.mod_eq_of_lt (by omega)]
    rw [if_neg (by omega)]
    omega

lemma expectedSizes_getLast (b t : Nat) (hb : 0 < b) (ht : 0 < t) :
    (expectedSizes b t).getLast? = some (if t % b = 0 then b else t % b) := by
  unfold expectedSizes
  rw [if_neg (by omega), List.getLast?_concat, flush_remainder b t hb ht]

lemma copyLoop_sizes (batchSize : Nat) (tr : List MapRule) (mr fr : List NameMapRule)
    (ir : List InjectRule) (hb : 0 < batchSize) :
    ∀ (recs : List FluxRecord) (batch : List Point) (count : Nat),
      (∀ r ∈ recs, isValidRecord r = true) → batch.length < batchSize →
      (copyLoop batchSize tr mr fr ir false recs batch count).2.map List.length =
        expectedSizes batchSize (batch.length + recs.length) := by
  intro recs
  induction recs with
  | nil =>
    intro batch count hv hlt
    cases batch with
    | nil => simp [copyLoop, expectedSizes]
    | cons p ps =>
      simp only [copyLoop]
      rw [if_pos (show (True ∧ ((p :: ps).isEmpty = false)) from ⟨trivial, rfl⟩)]
      simp only [List.length_nil, Nat.add_zero]
      rw [expectedSizes_small batchSize _ (by simp) (by simpa using hlt)]
      simp
  | cons r rs ih =>
    intro batch count hv hlt
    have hvr : isValidRecord r = true := hv r (List.mem_cons_self r rs)
    have hvs : ∀ x ∈ rs, isValidRecord x = true :=
      fun x hx => hv x (List.mem_cons_of_mem r hx)
    have hnv : ¬ isValidRecord r = false := by simp [hvr]
    simp only [copyLoop, if_neg hnv, Bool.false_eq_true, if_false, List.length_cons]
    by_cases hfull : batchSize ≤ (batch ++ [record_to_point r tr mr fr ir]).length
    · rw [if_pos hfull]
      have hlen : (batch ++ [record_to_point r tr mr fr ir]).length = batchSize := by
        simp at hfull ⊢
        omega
      simp only [List.map_cons]
      rw [ih [] (count + 1) hvs (by simpa using hb), hlen]
      have e : batch.length + (rs.length + 1) = batchSize + (([] : List Point).length + rs.length) := by
        simp at hlen
        simp
        omega
      rw [e, expectedSizes_cons _ _ hb]
    · rw [if_neg hfull]
      rw [ih (batch ++ [record_to_point r tr mr fr ir]) (count + 1) hvs (by simp at hfull ⊢; omega)]
      have e : (batch ++ [record_to_point r tr mr fr ir]).length + rs.length =
          batch.length + (rs.length + 1) := by
        simp
        omega
      rw [e]

lemma copyLoop_count (batchSize : Nat) (tr : List MapRule) (mr fr : List NameMapRule)
    (ir : List InjectRule) (dryRun : Bool) :
    ∀ (recs : List FluxRecord) (batch : List Point) (count : Nat),
      (copyLoop batchSize tr mr fr ir dryRun recs batch count).1 =
        count + (recs.filter isValidRecord).length := by
  intro recs
  induction recs with
  | nil => intro batch count; simp [copyLoop]
  | cons r rs ih =>
    intro batch count
    by_cases hvr : isValidRecord r = true
    · have hnv : ¬ isValidRecord r = false := by simp [hvr]
      simp only [copyLoop, if_neg hnv]
      rw [List.filter_cons_of_pos hvr]
      by_cases hd : dryRun = true
      · rw [if_pos hd, ih]
        simp only [List.length_cons]
        omega
      · have hd' : dryRun = false := by
          cases dryRun
          · rfl
          · exact absurd rfl hd
        subst hd'
        simp only [Bool.false_eq_true, if_false]
        by_cases hfull : batchSize ≤ (batch ++ [record_to_point r tr mr fr ir]).length
        · rw [if_pos hfull]
          simp only [ih]
          simp only [List.length_cons]
          omega
        · rw [if_neg hfull, ih]
          simp only [List.length_cons]
          omega
    · have hnv : isValidRecord r = false := by
        cases h : isValidRecord r
        · rfl
        · exact absurd h hvr
      simp only [copyLoop, hnv]
      rw [if_pos trivial, ih, List.filter_cons_of_neg (by simp [hnv])]

/-- C5: in write mode, for a stream of `N` valid records and batch size
`B > 0`, `copy_window` issues exactly `ceil (N / B)` write (flush) calls,
and the last flushed batch holds `N mod B` points, or `B` points when
`B` divides `N`. -/
theorem copy_window_flush_spec (recs : List FluxRecord) (batchSize : Nat)
    (tr : List MapRule) (mr fr : List NameMapRule) (ir : List InjectRule)
    (hb : 0 < batchSize) (hv : ∀ r ∈ recs, isValidRecord r = true) :
    (copy_window batchSize tr mr fr ir false recs).2.length =
        (recs.length + batchSize - 1) / batchSize
    ∧ (0 < recs.length →
        ((copy_window batchSize tr mr fr ir false recs).2.map List.length).getLast? =
          some (if recs.length % batchSize = 0 then batchSize
                else recs.length % batchSize)) := by
  have hsz := copyLoop_sizes batchSize tr mr fr ir hb recs [] 0 hv (by simpa using hb)
  simp only [List.length_nil, Nat.zero_add] at hsz
  constructor
  · have h1 : (copy_window batchSize tr mr fr ir false recs).2.length =
        ((copy_window batchSize tr mr fr ir false recs).2.map List.length).length := by
      rw [List.length_map]
    rw [h1]
    show (List.map List.length (copyLoop batchSize tr mr fr ir false recs [] 0).2).length = _
    rw [hsz, expectedSizes_length _ _ hb]
  · intro hpos
    show (List.map List.length (copyLoop batchSize tr mr fr ir false recs [] 0).2).getLast? = _
    rw [hsz, expectedSizes_getLast _ _ hb hpos]

/-- A well-formed record used by concrete witnesses. -/
def sampleRec : FluxRecord :=
  { measurement := some "heaters", field := some "temp", time := some 0,
    value := some "21.5", values := [("id", some "heaters_LHT_1"), ("device", some "X")] }

/-- A malformed record (missing measurement) used by concrete witnesses. -/
def badRec : FluxRecord :=
  { measurement := none, field := some "temp", time := some 0,
    value := none, values := [] }

/-- Witness for C5: three valid records with batch size two flush twice,
the last flush holding one point. -/
theorem copy_window_flush_spec_witness :
    (copy_window 2 [] [] [] [] false [sampleRec, sampleRec, sampleRec]).2.length = 2
    ∧ ((copy_window 2 [] [] [] [] false [sampleRec, sampleRec, sampleRec]).2.map
        List.length).getLast? = some 1 := by
  have h := copy_window_flush_spec [sampleRec, sampleRec, sampleRec] 2 [] [] [] []
    (by decide) (by decide)
  exact ⟨h.1.trans (by decide), (h.2 (by decide)).trans (by decide)⟩

/-! ## Run-level properties (claims C8, C9) -/

lemma sum_map_zero {α : Type} (l : List α) : (l.map (fun _ => (0 : Nat))).sum = 0 := by
  induction l with
  | nil => rfl
  | cons a t ih => simp [ih]

/-- C8: when both verify and dry-run are set, `run` exits with code 1 and
the stderr message before touching any source stream (the outcome is the
same for every stream, so no query is issued and no window processed);
when at most one of the two flags is set, this validation never produces
that abort. -/
theorem verify_dry_run_mutually_exclusive (args : RunArgs) :
    (args.verify = true → args.dry_run = true →
      ∀ stream : Int × Int → List FluxRecord,
        run args stream = RunOutcome.exited 1 modeConflictMsg)
    ∧ (¬(args.verify = true ∧ args.dry_run = true) →
      ∀ stream : Int × Int → List FluxRecord,
        run args stream ≠ RunOutcome.exited 1 modeConflictMsg) := by
  constructor
  · intro hv hd stream
    simp [run, hv, hd]
  · intro hboth stream
    have hb : (args.verify && args.dry_run) = false := by
      cases h1 : args.verify <;> cases h2 : args.dry_run <;> simp_all
    simp only [run, hb, Bool.false_eq_true, if_false]
    by_cases hm2 : (measurementsTruthy args.measurements
        && regexTruthy args.measurement_regex) = true
    · rw [if_pos hm2]
      exact (by decide : RunOutcome.exited 1 measConflictMsg ≠ RunOutcome.exited 1 modeConflictMsg)
    · rw [if_neg hm2]
      intro hcontra
      exact RunOutcome.noConfusion hcontra

/-- A baseline post-parse configuration used by concrete witnesses. -/
def baseArgs : RunArgs :=
  { verify := false, dry_run := false, measurements := none, measurement_regex := none,
    start := 0, stop := 1, window := 1, batch_size := 5000,
    tag_rules := [], measurement_rules := [], field_rules := [], inject_rules := [] }

/-- Witness for C8: with both flags set, the run is rejected with exit
code 1 and the stderr message. -/
theorem verify_dry_run_mutually_exclusive_witness :
    run { baseArgs with verify := true, dry_run := true } (fun _ => []) =
      RunOutcome.exited 1 modeConflictMsg := by
  exact (verify_dry_run_mutually_exclusive { baseArgs with verify := true, dry_run := true }).1
    rfl rfl (fun _ => [])

/-- C9: in verify mode every per-window count is the raw length of the
source stream for that window (every yielded record is counted, the
malformed ones included) and nothing is moved, while write mode counts
exactly the records that pass the malformed-record guard — so on the same
stream the verify count always dominates the write-mode count. -/
theorem verify_counts_raw_records (args : RunArgs)
    (stream : Int × Int → List FluxRecord)
    (hv : args.verify = true) (hd : args.dry_run = false)
    (hm : (measurementsTruthy args.measurements
        && regexTruthy args.measurement_regex) = false) :
    run args stream = RunOutcome.completed 0
        ((planWindows args.start args.stop args.window).map (fun w => (stream w).length))
    ∧ (∀ (recs : List FluxRecord) (batchSize : Nat) (tr : List MapRule)
        (mr fr : List NameMapRule) (ir : List InjectRule),
        (copy_window batchSize tr mr fr ir false recs).1 =
          (recs.filter isValidRecord).length
        ∧ (copy_window batchSize tr mr fr ir false recs).1 ≤ recs.length) := by
  constructor
  · simp only [run, hv, hd, Bool.and_false, Bool.false_eq_true, if_false, hm, if_true]
    congr 1
    · rw [List.map_map]
      have h0 : (Prod.snd ∘ fun w => ((stream w).length, 0)) = fun _ => (0 : Nat) := rfl
      rw [h0, sum_map_zero]
    · rw [List.map_map]
      rfl
  · intro recs batchSize tr mr fr ir
    have hc := copyLoop_count batchSize tr mr fr ir false recs [] 0
    constructor
    · show (copyLoop batchSize tr mr fr ir false recs [] 0).1 = _
      rw [hc, Nat.zero_add]
    · show (copyLoop batchSize tr mr fr ir false recs [] 0).1 ≤ _
      rw [hc, Nat.zero_add]
      exact List.length_filter_le isValidRecord recs

/-- Witness for C9: a window stream with one valid and one malformed
record is counted as two in verify mode while write mode moves one. -/
theorem verify_counts_raw_records_witness :
    run { baseArgs with verify := true } (fun _ => [sampleRec, badRec]) =
      RunOutcome.completed 0 [2]
    ∧ (copy_window 5000 [] [] [] [] false [sampleRec, badRec]).1 = 1 := by
  have h := verify_counts_raw_records { baseArgs with verify := true }
    (fun _ => [sampleRec, badRec]) rfl rfl rfl
  refine ⟨h.1.trans (by decide), ?_⟩
  exact (h.2 [sampleRec, badRec] 5000 [] [] [] []).1.trans (by decide)

/-! ## Tag injection properties (claims C6, C7, C10) -/

lemma lookup_setEntry_self {β : Type} (l : List (String × β)) (k : String) (v : β) :
    List.lookup k (setEntry l k v) = some v := by
  induction l with
  | nil => simp [setEntry, List.lookup]
  | cons a t ih =>
    obtain ⟨k', v'⟩ := a
    by_cases h : k' = k
    · simp [setEntry, h, List.lookup]
    · simp only [setEntry, if_neg h, List.lookup]
      have hne : (k == k') = false := by
        simp only [beq_eq_false_iff_ne]
        exact fun hc => h hc.symm
      rw [hne]
      exact ih

lemma lookup_setEntry_ne {β : Type} (l : List (String × β)) (k k' : String) (v : β)
    (h : k' ≠ k) : List.lookup k (setEntry l k' v) = List.lookup k l := by
  induction l with
  | nil =>
    simp only [setEntry, List.lookup]
    have hne : (k == k') = false := by
      simp only [beq_eq_false_iff_ne]
      exact fun hc => h hc.symm
    rw [hne]
  | cons a t ih =>
    obtain ⟨k2, v2⟩ := a
    by_cases h2 : k2 = k'
    · subst h2
      simp only [setEntry, if_pos rfl, List.lookup]
      have hne : (k == k2) = false := by
        simp only [beq_eq_false_iff_ne]
        exact fun hc => h hc.symm
      rw [hne]
    · simp only [setEntry, if_neg h2, List.lookup]
      cases hkk : k == k2
      · exact ih
      · rfl

lemma setEntry_mem {β : Type} (l : List (String × β)) (k : String) (v : β) :
    ∀ kv ∈ setEntry l k v, kv.1 = k ∨ kv ∈ l := by
  induction l with
  | nil =>
    intro kv h
    simp only [setEntry, List.mem_singleton] at h
    subst h
    exact Or.inl rfl
  | cons a t ih =>
    obtain ⟨k', v'⟩ := a
    intro kv h
    by_cases hk : k' = k
    · simp only [setEntry, if_pos hk, List.mem_cons] at h
      rcases h with rfl | h
      · exact Or.inl rfl
      · exact Or.inr (List.mem_cons_of_mem _ h)
    · simp only [setEntry, if_neg hk, List.mem_cons] at h
      rcases h with rfl | h
      · exact Or.inr (List.mem_cons_self _ _)
      · rcases ih kv h with h1 | h1
        · exact Or.inl h1
        · exact Or.inr (List.mem_cons_of_mem _ h1)

lemma injectStep_tags_cases (vals : List (String × Option String)) (p : Point)
    (r : InjectRule) :
    (injectStep vals p r).tags = p.tags
    ∨ ∃ v, (injectStep vals p r).tags = setEntry p.tags (InjectRule.new_key r) v := by
  cases r with
  | static k v => exact Or.inr ⟨v, rfl⟩
  | exact k sk frm dst =>
    cases hl : lookupVal vals sk with
    | none => exact Or.inl (by simp [injectStep, hl])
    | some ov =>
      cases ov with
      | none => exact Or.inl (by simp [injectStep, hl])
      | some s =>
        by_cases hs : s = frm
        · exact Or.inr ⟨dst, by simp [injectStep, hl, hs, Point.tag, InjectRule.new_key]⟩
        · exact Or.inl (by simp [injectStep, hl, hs])
  | regex k sk pat dst =>
    cases hl : lookupVal vals sk with
    | none => exact Or.inl (by simp [injectStep, hl])
    | some ov =>
      cases ov with
      | none => exact Or.inl (by simp [injectStep, hl])
      | some s =>
        by_cases hm : pat.pmatch s = true
        · by_cases hsub : pat.psub dst s = s
          · exact Or.inl (by simp [injectStep, hl, hm, hsub])
          · exact Or.inr ⟨pat.psub dst s,
              by simp [injectStep, hl, hm, hsub, Point.tag, InjectRule.new_key]⟩
        · exact Or.inl (by simp [injectStep, hl, hm])
  | wildcard k sk pat dst =>
    cases hl : lookupVal vals sk with
    | none => exact Or.inl (by simp [injectStep, hl])
    | some ov =>
      cases ov with
      | none => exact Or.inl (by simp [injectStep, hl])
      | some s =>
        by_cases hm : pat.pmatch s = true
        · by_cases hst : strStarts s (recoverStem pat.pattern) = true
          · exact Or.inr ⟨dst ++ strDrop s (recoverStem pat.pattern).length,
              by simp [injectStep, hl, hm, hst, Point.tag, InjectRule.new_key]⟩
          · exact Or.inl (by simp [injectStep, hl, hm, hst])
        · exact Or.inl (by simp [injectStep, hl, hm])

lemma apply_tag_injects_lookup_ne (vals : List (String × Option String))
    (rules : List InjectRule) :
    ∀ (p : Point) (k : String), (∀ r ∈ rules, InjectRule.new_key r ≠ k) →
      List.lookup k (apply_tag_injects p vals rules).tags = List.lookup k p.tags := by
  induction rules with
  | nil => intro p k _; rfl
  | cons r rs ih =>
    intro p k h
    have hr := h r (List.mem_cons_self r rs)
    have hrs : ∀ r' ∈ rs, InjectRule.new_key r' ≠ k :=
      fun r' hr' => h r' (List.mem_cons_of_mem r hr')
    show List.lookup k (apply_tag_injects (injectStep vals p r) vals rs).tags = _
    rw [ih _ _ hrs]
    rcases injectStep_tags_cases vals p r with hcase | ⟨v, hcase⟩
    · rw [hcase]
    · rw [hcase, lookup_setEntry_ne _ _ _ _ hr]

lemma apply_tag_injects_mem (vals : List (String × Option String))
    (rules : List InjectRule) :
    ∀ (p : Point) (kv : String × String), kv ∈ (apply_tag_injects p vals rules).tags →
      kv ∈ p.tags ∨ ∃ r ∈ rules, InjectRule.new_key r = kv.1 := by
  induction rules with
  | nil => intro p kv h; exact Or.inl h
  | cons r rs ih =>
    intro p kv h
    rcases ih (injectStep vals p r) kv h with h2 | ⟨r', hr', hk⟩
    · rcases injectStep_tags_cases vals p r with hcase | ⟨v, hcase⟩
      · rw [hcase] at h2
        exact Or.inl h2
      · rw [hcase] at h2
        rcases setEntry_mem _ _ _ kv h2 with h3 | h3
        · exact Or.inr ⟨r, List.mem_cons_self r rs, h3.symm⟩
        · exact Or.inl h3
    · exact Or.inr ⟨r', List.mem_cons_of_mem r hr', hk⟩

/-- C6: a static injection rule writes its tag on the transformed point
for every record — regardless of the record's existing tags, and
replacing any same-named tag that came from the record — provided no
later injection rule writes the same key. -/
theorem static_inject_spec (rec : FluxRecord) (tr : List MapRule)
    (mr fr : List NameMapRule) (pre post : List InjectRule) (k v : String)
    (hpost : ∀ r ∈ post, InjectRule.new_key r ≠ k) :
    List.lookup k
        (record_to_point rec tr mr fr (pre ++ InjectRule.static k v :: post)).tags
      = some v := by
  have key : ∀ q : Point,
      List.lookup k
          (apply_tag_injects q rec.values (pre ++ InjectRule.static k v :: post)).tags
        = some v := by
    intro q
    unfold apply_tag_injects
    rw [List.foldl_append, List.foldl_cons]
    have h1 := apply_tag_injects_lookup_ne rec.values post
      (injectStep rec.values (List.foldl (injectStep rec.values) q pre)
        (InjectRule.static k v)) k hpost
    unfold apply_tag_injects at h1
    rw [h1]
    exact lookup_setEntry_self _ _ _
  simp only [record_to_point, Point.field]
  exact key _

/-- Witness for C6: the static rule `env=production` overwrites the
record's own `env` tag on the transformed point. -/
theorem static_inject_spec_witness :
    List.lookup "env"
        (record_to_point
          { measurement := some "m", field := some "f", time := some 0,
            value := some "1", values := [("env", some "staging")] }
          [] [] [] [InjectRule.static "env" "production"]).tags
      = some "production" := by
  have h := static_inject_spec
    { measurement := some "m", field := some "f", time := some 0,
      value := some "1", values := [("env", some "staging")] }
    [] [] [] [] [] "env" "production" (by simp)
  simpa using h

/-- C7 (amended): a derived injection rule looks its source key up in the
record's raw `values` mapping — which also contains reserved keys, not
only the exported tag set.  When the key is absent from that mapping (or
the rule has no source key at all) or it carries a null value, the rule
is skipped: the point is left unchanged, later rules are still processed
and no error occurs.  When the key is present with a non-null value and
the matcher fires, the derived tag is set on the point. -/
theorem derived_inject_spec (p : Point) (vals : List (String × Option String)) :
    (∀ (r : InjectRule) (rest : List InjectRule), InjectRule.isDerived r = true →
        (lookupVal vals (InjectRule.source_key r) = none
          ∨ lookupVal vals (InjectRule.source_key r) = some none) →
        apply_tag_injects p vals (r :: rest) = apply_tag_injects p vals rest)
    ∧ (∀ (k sk frm dst s : String), List.lookup sk vals = some (some s) → s = frm →
        List.lookup k
            (apply_tag_injects p vals [InjectRule.exact k (some sk) frm dst]).tags
          = some dst)
    ∧ (∀ (k sk dst s : String) (pat : CompiledPattern),
        List.lookup sk vals = some (some s) → pat.pmatch s = true →
        pat.psub dst s ≠ s →
        List.lookup k
            (apply_tag_injects p vals [InjectRule.regex k (some sk) pat dst]).tags
          = some (pat.psub dst s))
    ∧ (∀ (k sk dst s : String) (pat : CompiledPattern),
        List.lookup sk vals = some (some s) → pat.pmatch s = true →
        strStarts s (recoverStem pat.pattern) = true →
        List.lookup k
            (apply_tag_injects p vals [InjectRule.wildcard k (some sk) pat dst]).tags
          = some (dst ++ strDrop s (recoverStem pat.pattern).length)) := by
  refine ⟨?_, ?_, ?_, ?_⟩
  · intro r rest hder hskip
    show apply_tag_injects (injectStep vals p r) vals rest = apply_tag_injects p vals rest
    have hstep : injectStep vals p r = p := by
      cases r with
      | static k v => simp [InjectRule.isDerived] at hder
      | exact k sk frm dst =>
        simp only [InjectRule.source_key] at hskip
        rcases hskip with h | h <;> simp [injectStep, h]
      | regex k sk pat dst =>
        simp only [InjectRule.source_key] at hskip
        rcases hskip with h | h <;> simp [injectStep, h]
      | wildcard k sk pat dst =>
        simp only [InjectRule.source_key] at hskip
        rcases hskip with h | h <;> simp [injectStep, h]
    rw [hstep]
  · intro k sk frm dst s hlk hs
    show List.lookup k (injectStep vals p (InjectRule.exact k (some sk) frm dst)).tags = _
    simp only [injectStep, lookupVal, hlk]
    rw [if_pos hs]
    exact lookup_setEntry_self _ _ _
  · intro k sk dst s pat hlk hm hsub
    show List.lookup k (injectStep vals p (InjectRule.regex k (some sk) pat dst)).tags = _
    simp only [injectStep, lookupVal, hlk]
    rw [if_pos hm, if_pos hsub]
    exact lookup_setEntry_self _ _ _
  · intro k sk dst s pat hlk hm hst
    show List.lookup k (injectStep vals p (InjectRule.wildcard k (some sk) pat dst)).tags = _
    simp only [injectStep, lookupVal, hlk]
    rw [if_pos hm, if_pos hst]
    exact lookup_setEntry_self _ _ _

/-- An empty point used by the C7 witness. -/
def emptyPoint : Point := { name := "m", tags := [], fields := [], time := none }

/-- Witness for C7: the spec's derived-injection example — rule
`zone=rack:prod-*->west-` with the source tag `rack=prod-12` present
injects `zone=west-12`. -/
theorem derived_inject_spec_witness :
    List.lookup "zone"
        (apply_tag_injects emptyPoint [("rack", some "prod-12")]
          [InjectRule.wildcard "zone" (some "rack") (modelCompile "^prod\\-.*$") "west-"]).tags
      = some "west-12" := by
  have h := (derived_inject_spec emptyPoint [("rack", some "prod-12")]).2.2.2
    "zone" "rack" "west-" "prod-12" (modelCompile "^prod\\-.*$") rfl rfl rfl
  exact h.trans (by decide)

/-- A record whose only raw entry is the reserved key `table` (so its
transformed tag set is empty). -/
def tableOnlyRec : FluxRecord :=
  { measurement := some "m", field := some "f", time := some 0, value := some "1",
    values := [("table", some "0")] }

/-- C7 counterexample: the source-key lookup reads the record's raw
values, not its tag set.  `tableOnlyRec` has no tags at all — its single
raw entry is the reserved key `table`, which `record_to_point` excludes
from the tag set — yet a derived rule with `source_key = table` fires and
injects `zone=z`, although the claim says a rule whose source key is
absent from the record's tags is skipped with no tag added. -/
theorem derived_inject_reads_reserved_keys :
    (record_to_point tableOnlyRec [] [] [] []).tags = []
    ∧ List.lookup "zone"
        (record_to_point tableOnlyRec [] [] []
          [InjectRule.exact "zone" (some "table") "0" "z"]).tags
      = some "z" := by
  exact ⟨rfl, rfl⟩

lemma recordTagsStep_mem (tr : List MapRule) (p : Point) (entry : String × Option String) :
    ∀ kv ∈ (recordTagsStep tr p entry).tags,
      kv ∈ p.tags
      ∨ (kv.1 = entry.1 ∧ entry.1 ∉ skipKeys ∧ strStarts entry.1 "_" = false
          ∧ ∃ s, entry.2 = some s) := by
  intro kv h
  by_cases hskip : entry.1 ∈ skipKeys ∨ strStarts entry.1 "_" = true
  · rw [recordTagsStep, if_pos hskip] at h
    exact Or.inl h
  · cases hval : entry.2 with
    | none =>
      rw [recordTagsStep, if_neg hskip] at h
      rw [hval] at h
      exact Or.inl h
    | some v =>
      rw [recordTagsStep, if_neg hskip] at h
      rw [hval] at h
      simp only [Point.tag] at h
      rcases setEntry_mem _ _ _ kv h with h1 | h1
      · refine Or.inr ⟨h1, fun hc => hskip (Or.inl hc), ?_, ⟨v, rfl⟩⟩
        cases hb : strStarts entry.1 "_"
        · rfl
        · exact absurd (Or.inr hb) hskip
      · exact Or.inl h1

lemma recordTagsFold_mem (tr : List MapRule) :
    ∀ (values : List (String × Option String)) (p : Point) (kv : String × String),
      kv ∈ (values.foldl (recordTagsStep tr) p).tags →
      kv ∈ p.tags
      ∨ (kv.1 ∉ skipKeys ∧ strStarts kv.1 "_" = false ∧ ∃ s, (kv.1, some s) ∈ values) := by
  intro values
  induction values with
  | nil => intro p kv h; exact Or.inl h
  | cons e es ih =>
    intro p kv h
    obtain ⟨e1, e2⟩ := e
    rcases ih (recordTagsStep tr p (e1, e2)) kv h with h1 | ⟨h2, h3, s, h4⟩
    · rcases recordTagsStep_mem tr p (e1, e2) kv h1 with h5 | ⟨he, hn, hu, s, hs⟩
      · exact Or.inl h5
      · simp only at he hn hu hs
        refine Or.inr ⟨by rw [he]; exact hn, by rw [he]; exact hu, s, ?_⟩
        rw [he, hs] at *
        exact List.mem_cons_self _ _
    · exact Or.inr ⟨h2, h3, s, List.mem_cons_of_mem _ h4⟩

/-- C10 (amended): when no injection rule's new key starts with an
underscore or belongs to the reserved set, every tag key of the point
built by `record_to_point` does not start with an underscore, is not in
the reserved set, and comes either from an injection rule or from a
non-null entry of the record's raw values (so no tag derives from a null
entry). -/
theorem record_to_point_tag_invariant (rec : FluxRecord) (tr : List MapRule)
    (mr fr : List NameMapRule) (ir : List InjectRule)
    (hinj : ∀ r ∈ ir, strStarts (InjectRule.new_key r) "_" = false
        ∧ InjectRule.new_key r ∉ skipKeys) :
    ∀ kv ∈ (record_to_point rec tr mr fr ir).tags,
      strStarts kv.1 "_" = false ∧ kv.1 ∉ skipKeys
      ∧ ((∃ r ∈ ir, InjectRule.new_key r = kv.1) ∨ ∃ s, (kv.1, some s) ∈ rec.values) := by
  intro kv h
  simp only [record_to_point, Point.field] at h
  rcases apply_tag_injects_mem rec.values ir _ kv h with h1 | ⟨r, hr, hk⟩
  · rcases recordTagsFold_mem tr rec.values _ kv h1 with h2 | ⟨h3, h4, s, h5⟩
    · simp at h2
    · exact ⟨h4, h3, Or.inr ⟨s, h5⟩⟩
  · obtain ⟨hu, hres⟩ := hinj r hr
    exact ⟨by rw [← hk]; exact hu, by rw [← hk]; exact hres, Or.inl ⟨r, hr, hk⟩⟩

/-- A record with a reserved entry, a plain entry and a null entry, used
by the C10 witness. -/
def c10Rec : FluxRecord :=
  { measurement := some "m", field := some "f", time := some 0, value := some "1",
    values := [("_time", some "t"), ("id", some "x"), ("bad", none)] }

/-- Witness for the amended C10 at the tag `id=x` of a concrete point. -/
theorem record_to_point_tag_invariant_witness :
    strStarts "id" "_" = false ∧ "id" ∉ skipKeys
    ∧ ((∃ r ∈ [InjectRule.static "env" "production"], InjectRule.new_key r = "id")
        ∨ ∃ s, ("id", some s) ∈ c10Rec.values) := by
  exact record_to_point_tag_invariant c10Rec [] [] [] [InjectRule.static "env" "production"]
    (by decide) ("id", "x") (by decide)

/-- A record carrying no values at all. -/
def bareRec : FluxRecord :=
  { measurement := some "m", field := some "f", time := some 0, value := none,
    values := [] }

/-- C10 counterexample: an injection rule whose new key is the reserved —
but not underscore-prefixed — name `result` satisfies the claim's
hypothesis yet puts a reserved key into the output tag set. -/
theorem record_to_point_reserved_inject_leak :
    strStarts "result" "_" = false
    ∧ ("result", "x") ∈ (record_to_point bareRec [] [] []
        [InjectRule.static "result" "x"]).tags
    ∧ "result" ∈ skipKeys := by
  exact ⟨rfl, by decide, by decide⟩
